import Mathlib

/-
Verification of the protfasta core (src/protfasta/io.py): the FASTA parsing
state machine `_parse_fasta_all`, the argument checker `check_inputs`, and the
writer `write_fasta_file`.  Lines of text are modelled as `List Char`; Python
`str.strip()` / `str.upper()` become `pyStrip` / `pyUpper`; exceptions become
`Except`.  The writer's `wrotenewline` local variable, which Python leaves
unbound until the first loop iteration, is modelled as an `Option Bool`
threaded through the whole write (reading `none` is the Python `NameError`).
-/

namespace Protfasta

/-- A single line of text (Python string). -/
abbrev Line := List Char

/-- Python `str.isspace` characters relevant to `str.strip()` (ASCII). -/
def pyIsSpace (c : Char) : Bool :=
  c = ' ' || c = '\t' || c = '\n' || c = '\r' || c = '\x0b' || c = '\x0c'

/-- Python `line.strip()`: remove leading and trailing whitespace. -/
def pyStrip (l : Line) : Line :=
  ((l.dropWhile pyIsSpace).reverse.dropWhile pyIsSpace).reverse

/-- Python `s.upper()` (ASCII case mapping, as used on protein sequences). -/
def pyUpper (l : Line) : Line := l.map Char.toUpper

/-- The `ProtfastaException` outcomes reachable from the embedded code. -/
inductive PErr
  | dupHeader (h : Line)
  | fileNotFound
  | configBadDRA
  | configBadDSA
  | configBadISA
  | configBadCross
  deriving DecidableEq

deriving instance DecidableEq for Except

/-- The `mode` argument of `_parse_fasta_all`: return a list or a dict. -/
inductive Mode
  | list
  | dict
  deriving DecidableEq

/-- The local variables of `_parse_fasta_all` during the loop over lines:
`return_data` (records committed so far, in order; in dict mode this is the
insertion-ordered dictionary), `all_headers` (list mode only), and the
current `seq` and `header`. -/
structure PState where
  returnData : List (Line × Line)
  allHeaders : List Line
  seq : Line
  header : Line
  deriving DecidableEq

/-- Python dict assignment `d[k] = v`: overwrite in place if the key exists,
otherwise append a new entry (insertion order preserved). -/
def dictInsert (d : List (Line × Line)) (k v : Line) : List (Line × Line) :=
  if k ∈ d.map Prod.fst then
    d.map (fun p => if p.1 = k then (k, v) else p)
  else d ++ [(k, v)]

/-- The local `check_duplicate()` closures of `_parse_fasta_all`: in dict mode
fail if `header` is already a key of `return_data`; in list mode fail only
when `expect_unique_header` and `header` is in `all_headers`. -/
def check_duplicate (mode : Mode) (expect_unique_header : Bool) (st : PState) :
    Except PErr Unit :=
  match mode with
  | .dict =>
      if st.header ∈ st.returnData.map Prod.fst then .error (.dupHeader st.header)
      else .ok ()
  | .list =>
      if expect_unique_header then
        if st.header ∈ st.allHeaders then .error (.dupHeader st.header) else .ok ()
      else .ok ()

/-- The local `update()` closures of `_parse_fasta_all`: commit the current
record with its sequence upper-cased. -/
def update (mode : Mode) (st : PState) : PState :=
  match mode with
  | .dict => { st with returnData := dictInsert st.returnData st.header (pyUpper st.seq) }
  | .list => { st with
      returnData := st.returnData ++ [(st.header, pyUpper st.seq)],
      allHeaders := st.allHeaders ++ [st.header] }

/-- One iteration of the `for line in content` loop of `_parse_fasta_all`:
strip the line; skip it if empty; on a `>` line commit the pending record
(if `len(seq) > 0`) and start a new header (after the optional
`header_parser` transform); otherwise append the stripped line to `seq`. -/
def stepLine (mode : Mode) (expect_unique_header : Bool)
    (header_transform : Option (Line → Line)) (st : PState) (line : Line) :
    Except PErr PState :=
  match pyStrip line with
  | [] => .ok st
  | c :: rest =>
      if c = '>' then
        let committed : Except PErr PState :=
          if st.seq.length > 0 then
            match check_duplicate mode expect_unique_header st with
            | .error e => .error e
            | .ok _ => .ok (update mode st)
          else .ok st
        match committed with
        | .error e => .error e
        | .ok st1 =>
            let newHeader : Line :=
              match header_transform with
              | some f => f rest
              | none => rest
            .ok { st1 with header := newHeader, seq := ([] : Line) }
      else
        .ok { st with seq := st.seq ++ (c :: rest) }

/-- The full loop of `_parse_fasta_all` over the input lines. -/
def parseLoop (mode : Mode) (expect_unique_header : Bool)
    (header_transform : Option (Line → Line)) : PState → List Line → Except PErr PState
  | st, [] => .ok st
  | st, l :: ls =>
      match stepLine mode expect_unique_header header_transform st l with
      | .error e => .error e
      | .ok st' => parseLoop mode expect_unique_header header_transform st' ls

/-- The post-loop code of `_parse_fasta_all`: if a sequence is pending
(`len(seq) > 0`) run the duplicate check and commit it, then return
`return_data`. -/
def finalize (mode : Mode) (expect_unique_header : Bool) (st : PState) :
    Except PErr (List (Line × Line)) :=
  if st.seq.length > 0 then
    match check_duplicate mode expect_unique_header st with
    | .error e => .error e
    | .ok _ => .ok (update mode st).returnData
  else .ok st.returnData

/-- Run the loop from a given state and then finalize. -/
def runFrom (mode : Mode) (expect_unique_header : Bool)
    (header_transform : Option (Line → Line)) (st : PState) (content : List Line) :
    Except PErr (List (Line × Line)) :=
  match parseLoop mode expect_unique_header header_transform st content with
  | .error e => .error e
  | .ok st' => finalize mode expect_unique_header st'

/-- `_parse_fasta_all(content, mode, expect_unique_header, header_parser)`:
the whole parsing function, starting from `seq = ''`, `header = ''` and an
empty collection.  In dict mode the returned association list is the
insertion-ordered Python dictionary. -/
def _parse_fasta_all (content : List Line) (mode : Mode)
    (expect_unique_header : Bool) (header_transform : Option (Line → Line)) :
    Except PErr (List (Line × Line)) :=
  runFrom mode expect_unique_header header_transform ⟨[], [], [], []⟩ content

/-- `internal_parse_fasta_file`: the file contents are given as
`some content` (the list of lines read), or `none` when the file does not
exist, in which case the `FileNotFoundError` is wrapped into a
`ProtfastaException`.  Parsing is always done in list mode. -/
def internal_parse_fasta_file (fileContent : Option (List Line))
    (expect_unique_header : Bool) (header_transform : Option (Line → Line)) :
    Except PErr (List (Line × Line)) :=
  match fileContent with
  | none => .error .fileNotFound
  | some content => _parse_fasta_all content .list expect_unique_header header_transform

/-- `check_inputs`: the option validator.  The Python dynamic type checks on
the booleans, the callable and the output filename are vacuous in this typed
embedding (a `Bool` is a bool, an `Option (Line → Line)` is callable and
returns a string); what remains are the keyword-set checks and the final
cross-constraint `duplicate_record_action is 'ignore'` with
`expect_unique_header is True`, in source order. -/
def check_inputs (expect_unique_header : Bool)
    (header_transform : Option (Line → Line))
    (duplicate_record_action duplicate_sequence_action invalid_sequence_action : String)
    (return_list : Bool) (output_filename : Option String) (verbose : Bool) :
    Except PErr Unit :=
  if duplicate_record_action ∉ (["ignore", "fail", "remove"] : List String) then
    .error .configBadDRA
  else if duplicate_sequence_action ∉ (["ignore", "fail", "remove"] : List String) then
    .error .configBadDSA
  else if invalid_sequence_action ∉ (["ignore", "fail", "remove", "convert"] : List String) then
    .error .configBadISA
  else if duplicate_record_action = "ignore" then
    if expect_unique_header then .error .configBadCross else .ok ()
  else .ok ()

/-- The failure mode of `write_fasta_file`: reading the local variable
`wrotenewline` before any assignment to it (Python `NameError`). -/
inductive WErr
  | nameErrorWroteNewline
  deriving DecidableEq

/-- The `linelength` normalisation at the top of `write_fasta_file`:
`False`, `None` and any value `< 1` disable wrapping (note Python
`0 == False`), otherwise the value is kept as an integer. -/
def normalizeLinelength (linelength : Option Int) : Option Nat :=
  match linelength with
  | none => none
  | some v => if v < 1 then none else some v.toNat

/-- The `for i in range(0, len(seq))` loop of `write_fasta_file`: emit each
character; set `wrotenewline = False`; when wrapping is enabled and `(i+1)`
is a multiple of the line length, emit a newline and set
`wrotenewline = True`.  Returns the emitted text and the final value of
`wrotenewline` (unchanged when the sequence is empty, i.e. the loop body
never runs). -/
def writeSeqChars (n : Option Nat) : Line → Nat → Option Bool → Line × Option Bool
  | [], _, wn => ([], wn)
  | c :: cs, i, _ =>
      match n with
      | none =>
          let r := writeSeqChars none cs (i + 1) (some false)
          (c :: r.1, r.2)
      | some m =>
          if (i + 1) % m = 0 then
            let r := writeSeqChars (some m) cs (i + 1) (some true)
            (c :: '\n' :: r.1, r.2)
          else
            let r := writeSeqChars (some m) cs (i + 1) (some false)
            (c :: r.1, r.2)

/-- One entry of the `for key in sequence_dict` loop of `write_fasta_file`:
write `>key\n`, then the sequence characters (wrapped), then consult
`wrotenewline`: one extra newline if it is `True`, two if it is `False`,
and a `NameError` if it was never assigned. -/
def writeEntry (n : Option Nat) (wn : Option Bool) (key seq : Line) :
    Except WErr (Line × Option Bool) :=
  let headerText : Line := '>' :: key ++ ['\n']
  let body := writeSeqChars n seq 0 wn
  match body.2 with
  | none => .error .nameErrorWroteNewline
  | some true => .ok (headerText ++ body.1 ++ ['\n'], some true)
  | some false => .ok (headerText ++ body.1 ++ ['\n', '\n'], some false)

/-- The loop over all dictionary entries, threading `wrotenewline` across
records exactly as the Python local variable persists across iterations. -/
def writeAll (n : Option Nat) : List (Line × Line) → Option Bool → Except WErr Line
  | [], _ => .ok []
  | (k, s) :: rest, wn =>
      match writeEntry n wn k s with
      | .error e => .error e
      | .ok r =>
          match writeAll n rest r.2 with
          | .error e => .error e
          | .ok t => .ok (r.1 ++ t)

/-- `write_fasta_file(sequence_dict, filename, linelength)`: the produced
file contents (the dictionary is its insertion-ordered entry list; the
filename plays no role in the text produced). -/
def write_fasta_file (sequence_dict : List (Line × Line)) (linelength : Option Int) :
    Except WErr Line :=
  writeAll (normalizeLinelength linelength) sequence_dict none

/-- Split a text into its lines at newline characters (the terminators are
dropped; `_parse_fasta_all` strips every line anyway, so feeding `linesOf t`
to the parser matches feeding the text `t` through `readlines`). -/
def linesOfAux : List Char → List Char → List Line
  | [], acc => if acc.isEmpty then [] else [acc.reverse]
  | c :: rest, acc =>
      if c = '\n' then acc.reverse :: linesOfAux rest []
      else linesOfAux rest (c :: acc)

/-- The lines of a text. -/
def linesOf (t : List Char) : List Line := linesOfAux t []

/-- The characters of a text other than newlines. -/
def dropNl (t : List Char) : List Char := t.filter fun c => !(c == '\n')

/-- Modelled from the spec's description of the writer algorithm: emit the
sequence characters in order, with a line break after every n-th character
emitted (1-indexed), counting from offset i. -/
def wrapFrom (n : Nat) (i : Nat) : Line → Line
  | [] => []
  | c :: cs =>
      if (i + 1) % n = 0 then c :: '\n' :: wrapFrom n (i + 1) cs
      else c :: wrapFrom n (i + 1) cs

/-- An abstract FASTA block: one header line (`>` followed by `hdr`) and the
raw lines that follow it up to the next header line. -/
structure GBlock where
  hdr : Line
  body : List Line
  deriving DecidableEq

/-- The input lines a block stands for. -/
def renderGBlock (b : GBlock) : List Line := ('>' :: b.hdr) :: b.body

/-- The sequence text a block contributes: the concatenation of its stripped
body lines (blank lines strip to nothing). -/
def seqOf (b : GBlock) : Line := (b.body.map pyStrip).flatten

/-- The record a block yields when it yields one. -/
def recOf (b : GBlock) : Line × Line := (b.hdr, pyUpper (seqOf b))

/-- Block validity: the header line survives stripping unchanged, and every
body line is either blank (strips to nothing) or a fragment line
(strip-invariant, nonempty, not starting with a header marker). -/
def ValidGBlock (b : GBlock) : Prop :=
  pyStrip ('>' :: b.hdr) = '>' :: b.hdr ∧
  ∀ l ∈ b.body, pyStrip l = [] ∨ (pyStrip l = l ∧ l ≠ [] ∧ l.head? ≠ some '>')

instance (b : GBlock) : Decidable (ValidGBlock b) := by
  unfold ValidGBlock
  infer_instance

/-- A block qualifies when at least one sequence character follows its
header. -/
def qualifies (b : GBlock) : Bool := !(seqOf b).isEmpty

/-- Headers of the qualifying blocks, in order. -/
def qualHeaders (bs : List GBlock) : List Line := (bs.filter qualifies).map GBlock.hdr

/-- Records of the qualifying blocks, in order. -/
def qualRecs (bs : List GBlock) : List (Line × Line) := (bs.filter qualifies).map recOf

/-- The header about to be committed by state `st`, if any. -/
def pendingOf (st : PState) : List Line :=
  if st.seq.length > 0 then [st.header] else []

/-- The record about to be committed by state `st`, if any. -/
def pendingRecs (st : PState) : List (Line × Line) :=
  if st.seq.length > 0 then [(st.header, pyUpper st.seq)] else []

/-- The keys the duplicate check of the given mode consults. -/
def checkKeys (mode : Mode) (st : PState) : List Line :=
  match mode with
  | .list => st.allHeaders
  | .dict => st.returnData.map Prod.fst

/-- Whether the duplicate check of the given mode is active. -/
def needsUnique (mode : Mode) (expect_unique_header : Bool) : Bool :=
  match mode with
  | .dict => true
  | .list => expect_unique_header

/-! Basic lemmas about stripping and the parse loop. -/

lemma noWS_strip_id (l : Line) (h : ∀ c ∈ l, pyIsSpace c = false) : pyStrip l = l := by
  unfold pyStrip
  have h1 : l.dropWhile pyIsSpace = l := by
    cases l with
    | nil => rfl
    | cons a t => simp [List.dropWhile_cons, h a (by simp)]
  rw [h1]
  have h2 : l.reverse.dropWhile pyIsSpace = l.reverse := by
    cases hr : l.reverse with
    | nil => rfl
    | cons a t =>
      have ha : a ∈ l := by
        have : a ∈ l.reverse := by rw [hr]; simp
        simpa using this
      simp [List.dropWhile_cons, h a ha]
  rw [h2, List.reverse_reverse]

lemma runFrom_nil (m : Mode) (euh : Bool) (ht : Option (Line → Line)) (st : PState) :
    runFrom m euh ht st [] = finalize m euh st := rfl

lemma runFrom_cons (m : Mode) (euh : Bool) (ht : Option (Line → Line)) (st : PState)
    (l : Line) (ls : List Line) :
    runFrom m euh ht st (l :: ls) =
      match stepLine m euh ht st l with
      | .error e => .error e
      | .ok st' => runFrom m euh ht st' ls := by
  cases h : stepLine m euh ht st l <;> simp [runFrom, parseLoop, h]

lemma parseLoop_append (m : Mode) (euh : Bool) (ht : Option (Line → Line))
    (xs ys : List Line) (st : PState) :
    parseLoop m euh ht st (xs ++ ys) =
      match parseLoop m euh ht st xs with
      | .error e => .error e
      | .ok st' => parseLoop m euh ht st' ys := by
  induction xs generalizing st with
  | nil => simp [parseLoop]
  | cons l ls ih =>
      cases h : stepLine m euh ht st l with
      | error e => simp [parseLoop, h]
      | ok st' => simp [parseLoop, h, ih]

lemma runFrom_append (m : Mode) (euh : Bool) (ht : Option (Line → Line))
    {xs : List Line} {st st' : PState} (ys : List Line)
    (h : parseLoop m euh ht st xs = .ok st') :
    runFrom m euh ht st (xs ++ ys) = runFrom m euh ht st' ys := by
  simp [runFrom, parseLoop_append, h]

lemma parseLoop_body (m : Mode) (euh : Bool) (ht : Option (Line → Line))
    (body : List Line) (st : PState)
    (hb : ∀ l ∈ body, pyStrip l = [] ∨ (pyStrip l = l ∧ l ≠ [] ∧ l.head? ≠ some '>')) :
    parseLoop m euh ht st body = .ok { st with seq := st.seq ++ (body.map pyStrip).flatten } := by
  induction body generalizing st with
  | nil => simp [parseLoop]
  | cons l rest ih =>
      rcases hb l (by simp) with hblank | ⟨hfix, hne, hhd⟩
      · have hstep : stepLine m euh ht st l = .ok st := by
          simp [stepLine, hblank]
        simp only [parseLoop, hstep]
        rw [ih _ (fun x hx => hb x (by simp [hx]))]
        simp [hblank]
      · obtain ⟨c, cs, rfl⟩ : ∃ c cs, l = c :: cs := by
          cases l with
          | nil => exact absurd rfl hne
          | cons c cs => exact ⟨c, cs, rfl⟩
        have hc : ¬ c = '>' := by
          intro h; apply hhd; simp [h]
        have hstep : stepLine m euh ht st (c :: cs) = .ok { st with seq := st.seq ++ (c :: cs) } := by
          simp only [stepLine, hfix]
          simp [hc]
        simp only [parseLoop, hstep]
        rw [ih _ (fun x hx => hb x (by simp [hx]))]
        simp [hfix, List.append_assoc]

/-! Lemmas about committing a record (header-line step and finalize). -/

lemma update_seq (m : Mode) (st : PState) : (update m st).seq = st.seq := by
  cases m <;> rfl

lemma update_header (m : Mode) (st : PState) : (update m st).header = st.header := by
  cases m <;> rfl

lemma dictInsert_notMem {d : List (Line × Line)} {k : Line} (v : Line)
    (h : k ∉ d.map Prod.fst) : dictInsert d k v = d ++ [(k, v)] := by
  simp [dictInsert, h]

lemma update_returnData (m : Mode) (st : PState)
    (h : m = .dict → st.header ∉ st.returnData.map Prod.fst) :
    (update m st).returnData = st.returnData ++ [(st.header, pyUpper st.seq)] := by
  cases m with
  | list => rfl
  | dict => simp [update, dictInsert_notMem _ (h rfl)]

lemma checkKeys_update (m : Mode) (st : PState)
    (h : m = .dict → st.header ∉ st.returnData.map Prod.fst) :
    checkKeys m (update m st) = checkKeys m st ++ [st.header] := by
  cases m with
  | list => rfl
  | dict => simp [checkKeys, update_returnData _ _ h]

lemma checkKeys_set (m : Mode) (st : PState) (h s : Line) :
    checkKeys m { st with header := h, seq := s } = checkKeys m st := by
  cases m <;> rfl

lemma check_duplicate_ok (m : Mode) (euh : Bool) (st : PState)
    (h : needsUnique m euh = true → st.header ∉ checkKeys m st) :
    check_duplicate m euh st = .ok () := by
  cases m with
  | dict =>
      have hnot : st.header ∉ st.returnData.map Prod.fst := h rfl
      simp only [check_duplicate]
      rw [if_neg hnot]
  | list =>
      cases heuh : euh with
      | false => simp [check_duplicate]
      | true =>
          have hnot : st.header ∉ st.allHeaders := by
            have h2 := h heuh
            simpa [checkKeys] using h2
          simp [check_duplicate, heuh, hnot]

lemma check_duplicate_err (m : Mode) (euh : Bool) (st : PState)
    (hu : needsUnique m euh = true) (hin : st.header ∈ checkKeys m st) :
    check_duplicate m euh st = .error (.dupHeader st.header) := by
  cases m with
  | dict =>
      have hin2 : st.header ∈ st.returnData.map Prod.fst := hin
      simp only [check_duplicate]
      rw [if_pos hin2]
  | list =>
      have heuh : euh = true := hu
      subst heuh
      have hin2 : st.header ∈ st.allHeaders := hin
      simp [check_duplicate, hin2]

lemma stepLine_header_nopending (m : Mode) (euh : Bool) (st : PState) (h : Line)
    (hfix : pyStrip ('>' :: h) = '>' :: h) (hseq : st.seq = []) :
    stepLine m euh none st ('>' :: h) = .ok { st with header := h, seq := ([] : Line) } := by
  simp only [stepLine, hfix]
  simp [hseq]

lemma stepLine_header_commit (m : Mode) (euh : Bool) (st : PState) (h : Line)
    (hfix : pyStrip ('>' :: h) = '>' :: h) (hseq : st.seq ≠ [])
    (hchk : needsUnique m euh = true → st.header ∉ checkKeys m st) :
    stepLine m euh none st ('>' :: h) =
      .ok { update m st with header := h, seq := ([] : Line) } := by
  have hlen : st.seq.length > 0 := List.length_pos.mpr hseq
  simp only [stepLine, hfix]
  simp [hlen, check_duplicate_ok m euh st hchk]

lemma stepLine_header_dup (m : Mode) (euh : Bool) (st : PState) (h : Line)
    (hfix : pyStrip ('>' :: h) = '>' :: h) (hseq : st.seq ≠ [])
    (hu : needsUnique m euh = true) (hin : st.header ∈ checkKeys m st) :
    stepLine m euh none st ('>' :: h) = .error (.dupHeader st.header) := by
  have hlen : st.seq.length > 0 := List.length_pos.mpr hseq
  simp only [stepLine, hfix]
  simp [hlen, check_duplicate_err m euh st hu hin]

lemma finalize_nopending (m : Mode) (euh : Bool) (st : PState) (hseq : st.seq = []) :
    finalize m euh st = .ok st.returnData := by
  simp [finalize, hseq]

lemma finalize_commit (m : Mode) (euh : Bool) (st : PState) (hseq : st.seq ≠ [])
    (hchk : needsUnique m euh = true → st.header ∉ checkKeys m st) :
    finalize m euh st = .ok (st.returnData ++ [(st.header, pyUpper st.seq)]) := by
  have hlen : st.seq.length > 0 := List.length_pos.mpr hseq
  have hdict : m = .dict → st.header ∉ st.returnData.map Prod.fst := by
    intro hm
    have := hchk (by simp [hm, needsUnique])
    simpa [hm, checkKeys] using this
  simp [finalize, hlen, check_duplicate_ok m euh st hchk, update_returnData m st hdict]

lemma finalize_dup (m : Mode) (euh : Bool) (st : PState) (hseq : st.seq ≠ [])
    (hu : needsUnique m euh = true) (hin : st.header ∈ checkKeys m st) :
    finalize m euh st = .error (.dupHeader st.header) := by
  have hlen : st.seq.length > 0 := List.length_pos.mpr hseq
  simp [finalize, hlen, check_duplicate_err m euh st hu hin]

/-! Helpers for the block-level characterisation of a parse run. -/

lemma runFrom_cons_ok (m : Mode) (euh : Bool) (ht : Option (Line → Line))
    {st st' : PState} {l : Line} (ls : List Line)
    (h : stepLine m euh ht st l = .ok st') :
    runFrom m euh ht st (l :: ls) = runFrom m euh ht st' ls := by
  rw [runFrom_cons, h]

lemma runFrom_cons_err (m : Mode) (euh : Bool) (ht : Option (Line → Line))
    {st : PState} {l : Line} {e : PErr} (ls : List Line)
    (h : stepLine m euh ht st l = .error e) :
    runFrom m euh ht st (l :: ls) = .error e := by
  rw [runFrom_cons, h]

lemma pendingOf_nil {st : PState} (hseq : st.seq = []) : pendingOf st = [] := by
  simp [pendingOf, hseq]

lemma pendingOf_pos {st : PState} (hseq : st.seq ≠ []) : pendingOf st = [st.header] := by
  simp [pendingOf, List.length_pos.mpr hseq]

lemma pendingRecs_nil {st : PState} (hseq : st.seq = []) : pendingRecs st = [] := by
  simp [pendingRecs, hseq]

lemma pendingRecs_pos {st : PState} (hseq : st.seq ≠ []) :
    pendingRecs st = [(st.header, pyUpper st.seq)] := by
  simp [pendingRecs, List.length_pos.mpr hseq]

lemma qualHeaders_nil : qualHeaders [] = [] := rfl

lemma qualRecs_nil : qualRecs [] = [] := rfl

lemma qualHeaders_cons (b : GBlock) (bs : List GBlock) :
    qualHeaders (b :: bs) =
      (if qualifies b then [b.hdr] else []) ++ qualHeaders bs := by
  simp only [qualHeaders, List.filter_cons]
  by_cases h : qualifies b <;> simp [h]

lemma qualRecs_cons (b : GBlock) (bs : List GBlock) :
    qualRecs (b :: bs) = (if qualifies b then [recOf b] else []) ++ qualRecs bs := by
  simp only [qualRecs, List.filter_cons]
  by_cases h : qualifies b <;> simp [h]

lemma qualifies_false_iff (b : GBlock) : qualifies b = false ↔ seqOf b = [] := by
  simp [qualifies, List.isEmpty_iff]

lemma qualifies_true_iff (b : GBlock) : qualifies b = true ↔ seqOf b ≠ [] := by
  simp [qualifies, List.isEmpty_iff]

lemma notMem_of_nodup_append {l1 l2 : List Line} {a : Line}
    (h : (l1 ++ a :: l2).Nodup) : a ∉ l1 := by
  rw [List.nodup_append] at h
  exact fun ha => h.2.2 ha (by simp)

lemma mem_of_not_nodup {l1 : List Line} {a : Line} (h1 : l1.Nodup)
    (h : ¬ (l1 ++ [a]).Nodup) : a ∈ l1 := by
  by_contra hna
  apply h
  rw [List.nodup_append]
  refine ⟨h1, by simp, fun x hx hax => ?_⟩
  simp only [List.mem_singleton] at hax
  subst hax
  exact hna hx

lemma nodup_append_singleton {l1 : List Line} {a : Line} (h1 : l1.Nodup)
    (ha : a ∉ l1) : (l1 ++ [a]).Nodup := by
  rw [List.nodup_append]
  refine ⟨h1, by simp, fun x hx hax => ?_⟩
  simp only [List.mem_singleton] at hax
  subst hax
  exact ha hx

lemma flatMap_render_cons (b : GBlock) (bs : List GBlock) :
    (b :: bs).flatMap renderGBlock =
      ('>' :: b.hdr) :: (b.body ++ bs.flatMap renderGBlock) := by
  simp [renderGBlock]

lemma runFrom_enter_block_nopending (m : Mode) (euh : Bool) (b : GBlock)
    (tail : List Line) (st : PState) (hseq : st.seq = [])
    (hfix : pyStrip ('>' :: b.hdr) = '>' :: b.hdr)
    (hbody : ∀ l ∈ b.body, pyStrip l = [] ∨ (pyStrip l = l ∧ l ≠ [] ∧ l.head? ≠ some '>')) :
    runFrom m euh none st (('>' :: b.hdr) :: (b.body ++ tail)) =
      runFrom m euh none { st with header := b.hdr, seq := seqOf b } tail := by
  rw [runFrom_cons_ok m euh none _ (stepLine_header_nopending m euh st b.hdr hfix hseq)]
  rw [runFrom_append m euh none tail
    (parseLoop_body m euh none b.body { st with header := b.hdr, seq := ([] : Line) } hbody)]
  congr 1

lemma runFrom_enter_block_commit (m : Mode) (euh : Bool) (b : GBlock)
    (tail : List Line) (st : PState) (hseq : st.seq ≠ [])
    (hchk : needsUnique m euh = true → st.header ∉ checkKeys m st)
    (hfix : pyStrip ('>' :: b.hdr) = '>' :: b.hdr)
    (hbody : ∀ l ∈ b.body, pyStrip l = [] ∨ (pyStrip l = l ∧ l ≠ [] ∧ l.head? ≠ some '>')) :
    runFrom m euh none st (('>' :: b.hdr) :: (b.body ++ tail)) =
      runFrom m euh none { update m st with header := b.hdr, seq := seqOf b } tail := by
  rw [runFrom_cons_ok m euh none _ (stepLine_header_commit m euh st b.hdr hfix hseq hchk)]
  rw [runFrom_append m euh none tail
    (parseLoop_body m euh none b.body { update m st with header := b.hdr, seq := ([] : Line) } hbody)]
  congr 1

end Protfasta

namespace Protfasta

/-- Success form of the run characterisation: starting from any state whose
pending record and upcoming qualifying headers collide neither with the
already-checked keys nor with each other (when the duplicate check is
active), the run commits the pending record and then one record per
qualifying block, in order. -/
lemma runFrom_blocks_ok (m : Mode) (euh : Bool) (bs : List GBlock) (st : PState)
    (hv : ∀ b ∈ bs, ValidGBlock b)
    (hnd : needsUnique m euh = true →
      (checkKeys m st ++ (pendingOf st ++ qualHeaders bs)).Nodup) :
    runFrom m euh none st (bs.flatMap renderGBlock) =
      .ok (st.returnData ++ (pendingRecs st ++ qualRecs bs)) := by
  induction bs generalizing st with
  | nil =>
      simp only [List.flatMap_nil, runFrom_nil, qualRecs_nil]
      by_cases hseq : st.seq = []
      · rw [finalize_nopending m euh st hseq]
        simp [pendingRecs_nil hseq]
      · have hchk : needsUnique m euh = true → st.header ∉ checkKeys m st := by
          intro hu
          have h2 := hnd hu
          rw [pendingOf_pos hseq, qualHeaders_nil] at h2
          simp only [List.append_nil] at h2
          exact notMem_of_nodup_append h2
        rw [finalize_commit m euh st hseq hchk]
        simp [pendingRecs_pos hseq]
  | cons b rest ih =>
      obtain ⟨hfix, hbody⟩ := hv b (by simp)
      have hvrest : ∀ x ∈ rest, ValidGBlock x := fun x hx => hv x (by simp [hx])
      rw [flatMap_render_cons]
      by_cases hseq : st.seq = []
      · rw [runFrom_enter_block_nopending m euh b _ st hseq hfix hbody]
        rw [ih _ hvrest ?hnd2]
        case hnd2 =>
          intro hu
          have h2 := hnd hu
          rw [pendingOf_nil hseq, qualHeaders_cons] at h2
          rw [checkKeys_set]
          have hpend : pendingOf { st with header := b.hdr, seq := seqOf b } =
              if qualifies b then [b.hdr] else [] := by
            by_cases hq : qualifies b
            · have : seqOf b ≠ [] := (qualifies_true_iff b).mp hq
              rw [pendingOf_pos this]
              simp [hq]
            · have : seqOf b = [] := (qualifies_false_iff b).mp (by simpa using hq)
              rw [pendingOf_nil this]
              simp [hq]
          rw [hpend]
          simpa using h2
        have hpendr : pendingRecs { st with header := b.hdr, seq := seqOf b } =
            if qualifies b then [recOf b] else [] := by
          by_cases hq : qualifies b
          · have : seqOf b ≠ [] := (qualifies_true_iff b).mp hq
            rw [pendingRecs_pos this]
            simp [hq, recOf]
          · have : seqOf b = [] := (qualifies_false_iff b).mp (by simpa using hq)
            rw [pendingRecs_nil this]
            simp [hq]
        rw [hpendr, pendingRecs_nil hseq, qualRecs_cons]
        simp
      · have hchk : needsUnique m euh = true → st.header ∉ checkKeys m st := by
          intro hu
          have h2 := hnd hu
          rw [pendingOf_pos hseq] at h2
          exact notMem_of_nodup_append (by simpa using h2)
        rw [runFrom_enter_block_commit m euh b _ st hseq hchk hfix hbody]
        have hdict : m = .dict → st.header ∉ st.returnData.map Prod.fst := by
          intro hm
          have := hchk (by simp [hm, needsUnique])
          simpa [hm, checkKeys] using this
        rw [ih _ hvrest ?hnd2]
        case hnd2 =>
          intro hu
          have h2 := hnd hu
          rw [pendingOf_pos hseq, qualHeaders_cons] at h2
          rw [checkKeys_set, checkKeys_update m st hdict]
          have hpend : pendingOf { update m st with header := b.hdr, seq := seqOf b } =
              if qualifies b then [b.hdr] else [] := by
            by_cases hq : qualifies b
            · have : seqOf b ≠ [] := (qualifies_true_iff b).mp hq
              rw [pendingOf_pos this]
              simp [hq]
            · have : seqOf b = [] := (qualifies_false_iff b).mp (by simpa using hq)
              rw [pendingOf_nil this]
              simp [hq]
          rw [hpend]
          by_cases hq : qualifies b <;> simp [hq] at h2 ⊢ <;>
            simpa [List.append_assoc] using h2
        have hpendr : pendingRecs { update m st with header := b.hdr, seq := seqOf b } =
            if qualifies b then [recOf b] else [] := by
          by_cases hq : qualifies b
          · have : seqOf b ≠ [] := (qualifies_true_iff b).mp hq
            rw [pendingRecs_pos this]
            simp [hq, recOf]
          · have : seqOf b = [] := (qualifies_false_iff b).mp (by simpa using hq)
            rw [pendingRecs_nil this]
            simp [hq]
        have hrd : ({ update m st with header := b.hdr, seq := seqOf b } : PState).returnData =
            st.returnData ++ [(st.header, pyUpper st.seq)] := by
          have := update_returnData m st hdict
          simpa using this
        rw [hpendr, hrd, pendingRecs_pos hseq, qualRecs_cons]
        by_cases hq : qualifies b <;> simp [hq, List.append_assoc]

end Protfasta

namespace Protfasta

/-- Failure form of the run characterisation: when the duplicate check is
active and the eventual commit sequence contains a collision, the run aborts
with a duplicate-header error. -/
lemma runFrom_blocks_err (m : Mode) (euh : Bool) (bs : List GBlock) (st : PState)
    (hv : ∀ b ∈ bs, ValidGBlock b)
    (hu : needsUnique m euh = true)
    (hkeys : (checkKeys m st).Nodup)
    (hdup : ¬ (checkKeys m st ++ (pendingOf st ++ qualHeaders bs)).Nodup) :
    ∃ h, runFrom m euh none st (bs.flatMap renderGBlock) = .error (.dupHeader h) := by
  induction bs generalizing st with
  | nil =>
      by_cases hseq : st.seq = []
      · rw [pendingOf_nil hseq, qualHeaders_nil] at hdup
        simp only [List.append_nil] at hdup
        exact absurd hkeys hdup
      · rw [pendingOf_pos hseq, qualHeaders_nil] at hdup
        simp only [List.append_nil] at hdup
        have hin : st.header ∈ checkKeys m st := mem_of_not_nodup hkeys hdup
        refine ⟨st.header, ?_⟩
        simp only [List.flatMap_nil, runFrom_nil]
        exact finalize_dup m euh st hseq hu hin
  | cons b rest ih =>
      obtain ⟨hfix, hbody⟩ := hv b (by simp)
      have hvrest : ∀ x ∈ rest, ValidGBlock x := fun x hx => hv x (by simp [hx])
      have hpend : ∀ (base : PState),
          pendingOf { base with header := b.hdr, seq := seqOf b } =
            if qualifies b then [b.hdr] else [] := by
        intro base
        by_cases hq : qualifies b
        · have : seqOf b ≠ [] := (qualifies_true_iff b).mp hq
          rw [pendingOf_pos this]
          simp [hq]
        · have : seqOf b = [] := (qualifies_false_iff b).mp (by simpa using hq)
          rw [pendingOf_nil this]
          simp [hq]
      rw [flatMap_render_cons]
      by_cases hseq : st.seq = []
      · rw [runFrom_enter_block_nopending m euh b _ st hseq hfix hbody]
        refine ih _ hvrest ?_ ?_
        · rw [checkKeys_set]
          exact hkeys
        · rw [checkKeys_set, hpend]
          rw [pendingOf_nil hseq, qualHeaders_cons] at hdup
          by_cases hq : qualifies b <;> simpa [hq] using hdup
      · by_cases hin : st.header ∈ checkKeys m st
        · refine ⟨st.header, ?_⟩
          exact runFrom_cons_err m euh none _
            (stepLine_header_dup m euh st b.hdr hfix hseq hu hin)
        · have hchk : needsUnique m euh = true → st.header ∉ checkKeys m st :=
            fun _ => hin
          have hdict : m = .dict → st.header ∉ st.returnData.map Prod.fst := by
            intro hm
            simpa [hm, checkKeys] using hin
          rw [runFrom_enter_block_commit m euh b _ st hseq hchk hfix hbody]
          refine ih _ hvrest ?_ ?_
          · rw [checkKeys_set, checkKeys_update m st hdict]
            exact nodup_append_singleton hkeys hin
          · rw [checkKeys_set, checkKeys_update m st hdict, hpend]
            rw [pendingOf_pos hseq, qualHeaders_cons] at hdup
            by_cases hq : qualifies b <;> simp [hq] at hdup ⊢ <;>
              simpa [List.append_assoc] using hdup

end Protfasta

namespace Protfasta

/-! The dict-mode invariant: keys of the accumulated dictionary stay
pairwise distinct, because the duplicate check runs before every insert. -/

lemma check_dup_dict_notMem {euh : Bool} {st : PState} {u : Unit}
    (h : check_duplicate .dict euh st = .ok u) :
    st.header ∉ st.returnData.map Prod.fst := by
  by_contra hmem
  simp only [check_duplicate] at h
  rw [if_pos hmem] at h
  cases h

lemma stepLine_dict_keys {euh : Bool} {ht : Option (Line → Line)} {st st' : PState}
    {l : Line} (hst : (st.returnData.map Prod.fst).Nodup)
    (h : stepLine .dict euh ht st l = .ok st') :
    (st'.returnData.map Prod.fst).Nodup := by
  simp only [stepLine] at h
  cases hstrip : pyStrip l with
  | nil =>
      rw [hstrip] at h
      cases h
      exact hst
  | cons c cs =>
      rw [hstrip] at h
      dsimp only at h
      by_cases hc : c = '>'
      · rw [if_pos hc] at h
        by_cases hlen : st.seq.length > 0
        · rw [if_pos hlen] at h
          cases hchk : check_duplicate .dict euh st with
          | error e =>
              rw [hchk] at h
              cases h
          | ok u =>
              rw [hchk] at h
              have hnot := check_dup_dict_notMem hchk
              cases h
              simp only [update, dictInsert_notMem _ hnot]
              rw [List.map_append]
              exact nodup_append_singleton hst hnot
        · rw [if_neg hlen] at h
          cases h
          exact hst
      · rw [if_neg hc] at h
        cases h
        exact hst

lemma finalize_dict_keys {euh : Bool} {st : PState} {d : List (Line × Line)}
    (hst : (st.returnData.map Prod.fst).Nodup)
    (h : finalize .dict euh st = .ok d) : (d.map Prod.fst).Nodup := by
  simp only [finalize] at h
  by_cases hlen : st.seq.length > 0
  · rw [if_pos hlen] at h
    cases hchk : check_duplicate .dict euh st with
    | error e =>
        rw [hchk] at h
        cases h
    | ok u =>
        rw [hchk] at h
        have hnot := check_dup_dict_notMem hchk
        cases h
        simp only [update, dictInsert_notMem _ hnot]
        rw [List.map_append]
        exact nodup_append_singleton hst hnot
  · rw [if_neg hlen] at h
    cases h
    exact hst

lemma runFrom_dict_keys {euh : Bool} {ht : Option (Line → Line)}
    (content : List Line) (st : PState) {d : List (Line × Line)}
    (hst : (st.returnData.map Prod.fst).Nodup)
    (h : runFrom .dict euh ht st content = .ok d) : (d.map Prod.fst).Nodup := by
  induction content generalizing st with
  | nil => exact finalize_dict_keys hst h
  | cons l ls ih =>
      rw [runFrom_cons] at h
      cases hs : stepLine .dict euh ht st l with
      | error e =>
          rw [hs] at h
          cases h
      | ok st' =>
          rw [hs] at h
          exact ih st' (stepLine_dict_keys hst hs) h

lemma parse_dict_keys_nodup {euh : Bool} {ht : Option (Line → Line)}
    (content : List Line) {d : List (Line × Line)}
    (h : _parse_fasta_all content .dict euh ht = .ok d) : (d.map Prod.fst).Nodup := by
  exact runFrom_dict_keys content ⟨[], [], [], []⟩ (by simp) h

end Protfasta

namespace Protfasta

/-- Claim C1: for every well-formed input whose N headers are distinct,
parsing in list mode (under either unique-header setting) returns exactly N
records in source order; each record's sequence is the upper-cased
concatenation, in encountered order with no separator, of its non-blank
non-header fragment lines, and blank lines contribute nothing to any
sequence and do not terminate one. -/
theorem claim1_wellformed_list_parse (euh : Bool) (bs : List GBlock)
    (hv : ∀ b ∈ bs, ValidGBlock b)
    (hq : ∀ b ∈ bs, seqOf b ≠ [])
    (hnd : (bs.map GBlock.hdr).Nodup) :
    _parse_fasta_all (bs.flatMap renderGBlock) .list euh none = .ok (bs.map recOf) := by
  have hfilter : bs.filter qualifies = bs :=
    List.filter_eq_self.mpr (fun b hb => (qualifies_true_iff b).mpr (hq b hb))
  have h := runFrom_blocks_ok .list euh bs ⟨[], [], [], []⟩ hv ?_
  · simpa [_parse_fasta_all, qualRecs, hfilter, pendingRecs] using h
  · intro _
    simpa [checkKeys, pendingOf, qualHeaders, hfilter] using hnd

/-- Witness for C1 at a concrete two-record input (with one blank line
inside the second record's fragments). -/
theorem claim1_witness :
    _parse_fasta_all [['>', 'A'], ['M', 'K'], ['>', 'B'], [], ['v']] .list true none =
      .ok [(['A'], ['M', 'K']), (['B'], ['V'])] := by
  have h := claim1_wellformed_list_parse true
    [⟨['A'], [['M', 'K']]⟩, ⟨['B'], [[], ['v']]⟩] (by decide) (by decide) (by decide)
  have e1 : ([⟨['A'], [['M', 'K']]⟩, ⟨['B'], [[], ['v']]⟩] : List GBlock).flatMap renderGBlock =
      [['>', 'A'], ['M', 'K'], ['>', 'B'], [], ['v']] := by decide
  have e2 : ([⟨['A'], [['M', 'K']]⟩, ⟨['B'], [[], ['v']]⟩] : List GBlock).map recOf =
      [(['A'], ['M', 'K']), (['B'], ['V'])] := by decide
  rw [e1, e2] at h
  exact h

/-- Claim C2: a record is emitted for a header exactly when at least one
sequence character follows it before the next header line or end of input;
headers immediately followed by another header or by EOF are silently
dropped (never emitted with an empty sequence).  Stated over every input
that is a concatenation of header-led blocks, parsed in list mode with the
unique-header check off (so that no duplicate failure interferes): the
result is precisely the records of the qualifying blocks, in order. -/
theorem claim2_record_iff_sequence (bs : List GBlock)
    (hv : ∀ b ∈ bs, ValidGBlock b) :
    _parse_fasta_all (bs.flatMap renderGBlock) .list false none = .ok (qualRecs bs) := by
  have h := runFrom_blocks_ok .list false bs ⟨[], [], [], []⟩ hv
    (by intro hu; simp [needsUnique] at hu)
  simpa [_parse_fasta_all, pendingRecs] using h

/-- Witness for C2: a dangling header (no sequence before the next header)
yields no record, while the following header does. -/
theorem claim2_witness :
    _parse_fasta_all [['>', 'A'], ['>', 'B'], ['M', 'K']] .list false none =
      .ok [(['B'], ['M', 'K'])] := by
  have h := claim2_record_iff_sequence [⟨['A'], []⟩, ⟨['B'], [['M', 'K']]⟩] (by decide)
  have e1 : ([⟨['A'], []⟩, ⟨['B'], [['M', 'K']]⟩] : List GBlock).flatMap renderGBlock =
      [['>', 'A'], ['>', 'B'], ['M', 'K']] := by decide
  have e2 : qualRecs [⟨['A'], []⟩, ⟨['B'], [['M', 'K']]⟩] = [(['B'], ['M', 'K'])] := by decide
  rw [e1, e2] at h
  exact h

/-- Claim C5: on the input `>A\nXYZ\n>A\nQRS\n`, list-mode parsing with
unique headers expected fails with a duplicate-header error, while with the
check off it succeeds with two records both headed A. -/
theorem claim5_duplicate_policy :
    _parse_fasta_all (linesOf (">A\nXYZ\n>A\nQRS\n").toList) .list true none =
      .error (.dupHeader ['A']) ∧
    _parse_fasta_all (linesOf (">A\nXYZ\n>A\nQRS\n").toList) .list false none =
      .ok [(['A'], ['X', 'Y', 'Z']), (['A'], ['Q', 'R', 'S'])] := by
  exact ⟨by decide, by decide⟩

/-- Claim C6: in dict mode any second finalisation of the same header fails
with a duplicate-header error, whatever the unique-header flag; and a
successful dict-mode parse never silently overwrites: its keys are pairwise
distinct. -/
theorem claim6_dict_duplicates :
    (∀ (euh : Bool) (bs : List GBlock), (∀ b ∈ bs, ValidGBlock b) →
      ¬ (qualHeaders bs).Nodup →
      ∃ h, _parse_fasta_all (bs.flatMap renderGBlock) .dict euh none =
        .error (.dupHeader h)) ∧
    (∀ (content : List Line) (euh : Bool) (ht : Option (Line → Line))
      (d : List (Line × Line)),
      _parse_fasta_all content .dict euh ht = .ok d → (d.map Prod.fst).Nodup) := by
  constructor
  · intro euh bs hv hdup
    have h := runFrom_blocks_err .dict euh bs ⟨[], [], [], []⟩ hv rfl
      (by simp [checkKeys]) ?_
    · simpa [_parse_fasta_all] using h
    · simpa [checkKeys, pendingOf] using hdup
  · intro content euh ht d h
    exact parse_dict_keys_nodup content h

/-- Witness for C6: the duplicate abort in dict mode with the unique-header
flag set to false. -/
theorem claim6_witness :
    ∃ h, _parse_fasta_all [['>', 'A'], ['X'], ['>', 'A'], ['Q']] .dict false none =
      .error (.dupHeader h) := by
  have h := claim6_dict_duplicates.1 false
    [⟨['A'], [['X']]⟩, ⟨['A'], [['Q']]⟩] (by decide) (by decide)
  have e1 : ([⟨['A'], [['X']]⟩, ⟨['A'], [['Q']]⟩] : List GBlock).flatMap renderGBlock =
      [['>', 'A'], ['X'], ['>', 'A'], ['Q']] := by decide
  rw [e1] at h
  exact h

/-- Claim C7: parsing is all-or-nothing.  Over any block input, in either
mode: when the active duplicate check meets a collision the parse returns an
error and no collection at all, and otherwise it returns the complete
collection of qualifying records; a missing input file likewise aborts with
a file-not-found error and returns nothing. -/
theorem claim7_all_or_nothing :
    (∀ (m : Mode) (euh : Bool) (bs : List GBlock), (∀ b ∈ bs, ValidGBlock b) →
      ((needsUnique m euh = true ∧ ¬ (qualHeaders bs).Nodup) →
        ∃ h, _parse_fasta_all (bs.flatMap renderGBlock) m euh none =
          .error (.dupHeader h)) ∧
      ((needsUnique m euh = true → (qualHeaders bs).Nodup) →
        _parse_fasta_all (bs.flatMap renderGBlock) m euh none = .ok (qualRecs bs))) ∧
    (∀ (euh : Bool) (ht : Option (Line → Line)),
      internal_parse_fasta_file none euh ht = .error .fileNotFound) := by
  constructor
  · intro m euh bs hv
    constructor
    · rintro ⟨hu, hdup⟩
      have h := runFrom_blocks_err m euh bs ⟨[], [], [], []⟩ hv hu ?_ ?_
      · simpa [_parse_fasta_all] using h
      · cases m <;> simp [checkKeys]
      · cases m <;> simpa [checkKeys, pendingOf] using hdup
    · intro hnd
      have h := runFrom_blocks_ok m euh bs ⟨[], [], [], []⟩ hv ?_
      · simpa [_parse_fasta_all, pendingRecs] using h
      · intro hu
        have := hnd hu
        cases m <;> simpa [checkKeys, pendingOf] using this
  · intro euh ht
    rfl

/-- Witness for C7: a duplicate in list mode with the check active aborts
the whole parse. -/
theorem claim7_witness :
    ∃ h, _parse_fasta_all [['>', 'A'], ['X'], ['>', 'A'], ['Q']] .list true none =
      .error (.dupHeader h) := by
  have h := (claim7_all_or_nothing.1 .list true
    [⟨['A'], [['X']]⟩, ⟨['A'], [['Q']]⟩] (by decide)).1 ⟨rfl, by decide⟩
  have e1 : ([⟨['A'], [['X']]⟩, ⟨['A'], [['Q']]⟩] : List GBlock).flatMap renderGBlock =
      [['>', 'A'], ['X'], ['>', 'A'], ['Q']] := by decide
  rw [e1] at h
  exact h

/-- Counterexample to claim C9 as stated: on input consisting of the single
sequence-continuation line `XYZ` with no header at all, the parser neither
ignores the line nor fails defensively — it emits a record whose header is
the empty string.  (A no-op treatment would return the empty collection, as
parsing the empty input does.) -/
theorem claim9_counterexample :
    _parse_fasta_all [['X', 'Y', 'Z']] .list true none =
      .ok [(([] : Line), ['X', 'Y', 'Z'])] ∧
    _parse_fasta_all [] .list true none = .ok [] := by
  exact ⟨by decide, by decide⟩

/-- Claim C9 as amended: sequence-continuation lines appearing before any
header do not crash the parser, but they are not a no-op either — they are
accumulated and committed as a record with the empty-string header when the
first header line (or EOF) is reached. -/
theorem claim9_leading_junk_amended (pre : List Line) (bs : List GBlock)
    (hpre : ∀ l ∈ pre, pyStrip l = [] ∨ (pyStrip l = l ∧ l ≠ [] ∧ l.head? ≠ some '>'))
    (hne : (pre.map pyStrip).flatten ≠ [])
    (hv : ∀ b ∈ bs, ValidGBlock b) :
    _parse_fasta_all (pre ++ bs.flatMap renderGBlock) .list false none =
      .ok ((([] : Line), pyUpper (pre.map pyStrip).flatten) :: qualRecs bs) := by
  unfold _parse_fasta_all
  rw [runFrom_append .list false none _
    (parseLoop_body .list false none pre ⟨[], [], [], []⟩ hpre)]
  have h := runFrom_blocks_ok .list false bs
    ⟨[], [], (pre.map pyStrip).flatten, []⟩ hv (by intro hu; simp [needsUnique] at hu)
  rw [pendingRecs_pos hne] at h
  simpa using h

/-- Witness for the amended C9 at a concrete input. -/
theorem claim9_witness :
    _parse_fasta_all [['x'], ['>', 'A'], ['M']] .list false none =
      .ok [(([] : Line), ['X']), (['A'], ['M'])] := by
  have h := claim9_leading_junk_amended [['x']] [⟨['A'], [['M']]⟩]
    (by decide) (by decide) (by decide)
  have e1 : ([['x']] : List Line) ++ ([⟨['A'], [['M']]⟩] : List GBlock).flatMap renderGBlock =
      [['x'], ['>', 'A'], ['M']] := by decide
  have e2 : ((([] : Line), pyUpper (([['x']] : List Line).map pyStrip).flatten) ::
      qualRecs [⟨['A'], [['M']]⟩]) = [(([] : Line), ['X']), (['A'], ['M'])] := by decide
  rw [e1, e2] at h
  exact h

end Protfasta

namespace Protfasta

/-- Claim C8: validation fails with the cross-constraint configuration error
whenever duplicate-record-action is `ignore` and unique headers are
expected, for every combination of the remaining (individually valid)
options. -/
theorem claim8_cross_constraint (ht : Option (Line → Line)) (dsa isa : String)
    (rl : Bool) (ofn : Option String) (v : Bool)
    (hdsa : dsa ∈ (["ignore", "fail", "remove"] : List String))
    (hisa : isa ∈ (["ignore", "fail", "remove", "convert"] : List String)) :
    check_inputs true ht "ignore" dsa isa rl ofn v = .error .configBadCross := by
  simp [check_inputs, hdsa, hisa]

/-- Witness for C8 at one concrete option combination. -/
theorem claim8_witness :
    check_inputs true none "ignore" "fail" "fail" true none false =
      .error .configBadCross :=
  claim8_cross_constraint none "fail" "fail" true none false (by decide) (by decide)

/-! Writer lemmas: the character loop produces exactly the spec's wrapped
text, and its `wrotenewline` flag records whether the last character closed
a wrap boundary. -/

lemma writeSeqChars_fst_wrap (n : Nat) (seq : Line) : ∀ (i : Nat) (wn : Option Bool),
    (writeSeqChars (some n) seq i wn).1 = wrapFrom n i seq := by
  induction seq with
  | nil => intro i wn; rfl
  | cons c cs ih =>
      intro i wn
      simp only [writeSeqChars, wrapFrom]
      by_cases h : (i + 1) % n = 0 <;> simp [h, ih]

lemma writeSeqChars_snd_wrap (n : Nat) (seq : Line) : ∀ (i : Nat) (wn : Option Bool),
    seq ≠ [] →
    (writeSeqChars (some n) seq i wn).2 = some (decide ((i + seq.length) % n = 0)) := by
  induction seq with
  | nil => intro i wn h; exact absurd rfl h
  | cons c cs ih =>
      intro i wn _
      by_cases hcs : cs = []
      · subst hcs
        by_cases h : (i + 1) % n = 0 <;> simp [writeSeqChars, h]
      · have e : i + 1 + cs.length = i + (cs.length + 1) := by omega
        by_cases h : (i + 1) % n = 0 <;>
          simp [writeSeqChars, h, ih _ _ hcs, e, List.length_cons]

/-- Claim C4: with wrapping enabled the writer emits a line break after
every wrap-width-th sequence character (1-indexed) and ends the record with
exactly one blank line — a single extra line break when the final character
completed a wrap boundary, two otherwise; and concretely, sequence `ABCDE`
at wrap-width 2 produces `AB\nCD\nE\n\n` after the header line. -/
theorem claim4_writer_wrap :
    (∀ (n : Nat) (key seq : Line) (wn : Option Bool), 1 ≤ n → seq ≠ [] →
      writeEntry (some n) wn key seq =
        .ok (('>' :: key ++ ['\n']) ++ wrapFrom n 0 seq ++
            (if seq.length % n = 0 then ['\n'] else ['\n', '\n']),
          some (decide (seq.length % n = 0)))) ∧
    writeEntry (some 2) none ['A'] ['A', 'B', 'C', 'D', 'E'] =
      .ok ((">A\nAB\nCD\nE\n\n").toList, some false) := by
  constructor
  · intro n key seq wn _ hne
    simp only [writeEntry]
    rw [writeSeqChars_snd_wrap n seq 0 wn hne, writeSeqChars_fst_wrap]
    by_cases h : seq.length % n = 0 <;> simp [h, List.append_assoc]
  · rfl

/-- Witness for C4's general part, at wrap-width 2 on a two-character
sequence whose final character lands exactly on the wrap boundary. -/
theorem claim4_witness :
    writeEntry (some 2) (some true) ['B'] ['X', 'Y'] =
      .ok ((">B\nXY\n\n").toList, some true) := by
  have h := claim4_writer_wrap.1 2 ['B'] ['X', 'Y'] (some true) (by decide) (by decide)
  have e : ((('>' :: ['B'] ++ ['\n']) ++ wrapFrom 2 0 ['X', 'Y'] ++
        (if (['X', 'Y'] : Line).length % 2 = 0 then ['\n'] else ['\n', '\n']),
      some (decide ((['X', 'Y'] : Line).length % 2 = 0))) :
        Line × Option Bool) = ((">B\nXY\n\n").toList, some true) := by decide
  rw [e] at h
  exact h

/-- Claim C10: the writer's blank-line flag is only assigned inside the
per-character loop, so a first entry with an empty sequence raises an
unbound-variable error; and for a later empty-sequence entry the separator
written after its header depends on the previous record's wrap state (one
newline when the previous record ended on a wrap boundary, two otherwise)
rather than on the current record. -/
theorem claim10_writer_empty_sequence :
    write_fasta_file [(['A'], [])] (some 2) = .error .nameErrorWroteNewline ∧
    write_fasta_file [(['A'], ['A', 'B']), (['B'], [])] (some 2) =
      .ok ((">A\nAB\n\n>B\n\n").toList) ∧
    write_fasta_file [(['A'], ['A', 'B', 'C']), (['B'], [])] (some 2) =
      .ok ((">A\nAB\nC\n\n>B\n\n\n").toList) := by
  exact ⟨rfl, rfl, rfl⟩

end Protfasta

namespace Protfasta

/-! Lemmas about splitting text into lines, and about the characters the
writer's sequence loop emits.  These feed the round-trip proof. -/

lemma linesOfAux_cons (c : Char) (rest acc : List Char) :
    linesOfAux (c :: rest) acc =
      if c = '\n' then acc.reverse :: linesOfAux rest [] else linesOfAux rest (c :: acc) := rfl

lemma linesOfAux_append_nl (xs : List Char) : ∀ (ys acc : List Char),
    linesOfAux (xs ++ '\n' :: ys) acc = linesOfAux (xs ++ ['\n']) acc ++ linesOfAux ys [] := by
  induction xs with
  | nil => intro ys acc; simp [linesOfAux]
  | cons c xs ih =>
      intro ys acc
      rw [List.cons_append, List.cons_append, linesOfAux_cons, linesOfAux_cons]
      by_cases h : c = '\n'
      · rw [if_pos h, if_pos h, ih]
        simp
      · rw [if_neg h, if_neg h, ih]

lemma linesOfAux_no_nl (xs : List Char) : ∀ (acc : List Char), '\n' ∉ xs →
    linesOfAux (xs ++ ['\n']) acc = [acc.reverse ++ xs] := by
  induction xs with
  | nil => intro acc _; simp [linesOfAux]
  | cons c xs ih =>
      intro acc h
      have hc : ¬ c = '\n' := fun e => h (by simp [e])
      simp [linesOfAux, hc, ih (c :: acc) (fun hm => h (by simp [hm]))]

lemma flatten_linesOfAux (t : List Char) : ∀ (acc : List Char),
    (linesOfAux t acc).flatten = acc.reverse ++ dropNl t := by
  induction t with
  | nil =>
      intro acc
      cases acc with
      | nil => simp [linesOfAux, dropNl]
      | cons a as => simp [linesOfAux, dropNl]
  | cons c t ih =>
      intro acc
      by_cases h : c = '\n'
      · simp [linesOfAux, h, ih, dropNl, List.filter_cons]
      · simp [linesOfAux, h, ih, dropNl, List.filter_cons]

lemma mem_linesOfAux (t : List Char) : ∀ (acc : List Char) (l : Line),
    l ∈ linesOfAux t acc → ∀ c ∈ l, c ∈ acc ∨ (c ∈ t ∧ ¬ c = '\n') := by
  induction t with
  | nil =>
      intro acc l hl c hc
      cases acc with
      | nil => simp [linesOfAux] at hl
      | cons a as =>
          simp [linesOfAux] at hl
          subst hl
          refine Or.inl ?_
          simp at hc ⊢
          tauto
  | cons x t ih =>
      intro acc l hl c hc
      by_cases h : x = '\n'
      · subst h
        simp [linesOfAux] at hl
        rcases hl with rfl | hl
        · exact Or.inl (List.mem_reverse.mp hc)
        · rcases ih [] l hl c hc with habs | ⟨hmem, hne⟩
          · simp at habs
          · exact Or.inr ⟨by simp [hmem], hne⟩
      · simp [linesOfAux, h] at hl
        rcases ih (x :: acc) l hl c hc with hacc | ⟨hmem, hne⟩
        · rcases List.mem_cons.mp hacc with rfl | hacc2
          · exact Or.inr ⟨by simp, h⟩
          · exact Or.inl hacc2
        · exact Or.inr ⟨by simp [hmem], hne⟩

lemma writeSeqChars_snd_some_aux (nn : Option Nat) (seq : Line) : ∀ (i : Nat) (b0 : Bool),
    ∃ b, (writeSeqChars nn seq i (some b0)).2 = some b := by
  induction seq with
  | nil => intro i b0; exact ⟨b0, rfl⟩
  | cons c cs ih =>
      intro i b0
      cases nn with
      | none => simpa [writeSeqChars] using ih (i + 1) false
      | some m =>
          by_cases h : (i + 1) % m = 0
          · simpa [writeSeqChars, h] using ih (i + 1) true
          · simpa [writeSeqChars, h] using ih (i + 1) false

lemma writeSeqChars_snd_some (nn : Option Nat) (seq : Line) (i : Nat) (wn : Option Bool)
    (hne : seq ≠ []) : ∃ b, (writeSeqChars nn seq i wn).2 = some b := by
  cases seq with
  | nil => exact absurd rfl hne
  | cons c cs =>
      cases nn with
      | none => simpa [writeSeqChars] using writeSeqChars_snd_some_aux none cs (i + 1) false
      | some m =>
          by_cases h : (i + 1) % m = 0
          · simpa [writeSeqChars, h] using writeSeqChars_snd_some_aux (some m) cs (i + 1) true
          · simpa [writeSeqChars, h] using writeSeqChars_snd_some_aux (some m) cs (i + 1) false

lemma dropNl_writeSeqChars (nn : Option Nat) (seq : Line) : ∀ (i : Nat) (wn : Option Bool),
    (∀ c ∈ seq, ¬ c = '\n') → dropNl (writeSeqChars nn seq i wn).1 = seq := by
  induction seq with
  | nil => intro i wn _; rfl
  | cons c cs ih =>
      intro i wn h
      have hc : ¬ c = '\n' := h c (by simp)
      have hrest : ∀ x ∈ cs, ¬ x = '\n' := fun x hx => h x (by simp [hx])
      cases nn with
      | none =>
          have hrec := ih (i + 1) (some false) hrest
          simp only [dropNl] at hrec
          simp [writeSeqChars, dropNl, List.filter_cons, hc, hrec]
      | some m =>
          by_cases hh : (i + 1) % m = 0
          · have hrec := ih (i + 1) (some true) hrest
            simp only [dropNl] at hrec
            simp [writeSeqChars, dropNl, List.filter_cons, hc, hh, hrec]
          · have hrec := ih (i + 1) (some false) hrest
            simp only [dropNl] at hrec
            simp [writeSeqChars, dropNl, List.filter_cons, hc, hh, hrec]

lemma mem_writeSeqChars (nn : Option Nat) (seq : Line) : ∀ (i : Nat) (wn : Option Bool)
    (c : Char), c ∈ (writeSeqChars nn seq i wn).1 → c ∈ seq ∨ c = '\n' := by
  induction seq with
  | nil => intro i wn c hc; simp [writeSeqChars] at hc
  | cons x cs ih =>
      intro i wn c hc
      cases nn with
      | none =>
          simp only [writeSeqChars, List.mem_cons] at hc
          rcases hc with rfl | hc
          · exact Or.inl (by simp)
          · rcases ih _ _ _ hc with h1 | h2
            · exact Or.inl (by simp [h1])
            · exact Or.inr h2
      | some m =>
          by_cases hh : (i + 1) % m = 0
          · simp only [writeSeqChars, hh, if_true, List.mem_cons] at hc
            rcases hc with rfl | rfl | hc
            · exact Or.inl (by simp)
            · exact Or.inr rfl
            · rcases ih _ _ _ hc with h1 | h2
              · exact Or.inl (by simp [h1])
              · exact Or.inr h2
          · simp only [writeSeqChars, hh, if_false, List.mem_cons] at hc
            rcases hc with rfl | hc
            · exact Or.inl (by simp)
            · rcases ih _ _ _ hc with h1 | h2
              · exact Or.inl (by simp [h1])
              · exact Or.inr h2

end Protfasta

namespace Protfasta

/-- Characters that can occur in writer output other than line breaks:
non-whitespace, non-marker characters. -/
def GoodChar (c : Char) : Prop := pyIsSpace c = false ∧ ¬ c = '>'

instance (c : Char) : Decidable (GoodChar c) := by
  unfold GoodChar
  infer_instance

/-- The lines of a text whose characters are line breaks or good characters
are valid block-body lines, and their stripped concatenation recovers the
non-newline characters of the text. -/
lemma body_lines_spec (u : List Char)
    (hall : ∀ c ∈ u, c = '\n' ∨ GoodChar c) :
    (∀ l ∈ linesOf u, pyStrip l = [] ∨ (pyStrip l = l ∧ l ≠ [] ∧ l.head? ≠ some '>')) ∧
    ((linesOf u).map pyStrip).flatten = dropNl u := by
  have hchars : ∀ l ∈ linesOf u, ∀ c ∈ l, GoodChar c := by
    intro l hl c hc
    rcases mem_linesOfAux u [] l hl c hc with habs | ⟨hmem, hne⟩
    · simp at habs
    · rcases hall c hmem with rfl | hgood
      · exact absurd rfl hne
      · exact hgood
  have hfix : ∀ l ∈ linesOf u, pyStrip l = l := by
    intro l hl
    exact noWS_strip_id l (fun c hc => (hchars l hl c hc).1)
  constructor
  · intro l hl
    cases l with
    | nil => exact Or.inl rfl
    | cons c ls =>
        refine Or.inr ⟨hfix _ hl, by simp, ?_⟩
        have := (hchars _ hl c (by simp)).2
        simp [this]
  · rw [List.map_congr_left hfix |>.trans (List.map_id _)]
    exact flatten_linesOfAux u []

/-- A well-formed writer entry: whitespace-free header, nonempty sequence of
good characters. -/
def ValidEntry (e : Line × Line) : Prop :=
  (∀ c ∈ e.1, pyIsSpace c = false) ∧ (∀ c ∈ e.2, GoodChar c) ∧ e.2 ≠ []

instance (e : Line × Line) : Decidable (ValidEntry e) := by
  unfold ValidEntry
  infer_instance

/-- One writer entry succeeds on a valid entry and its text parses back as
one header line followed by body lines that reassemble exactly the written
sequence. -/
lemma writeEntry_lines (n : Option Nat) (wn : Option Bool) (key seq : Line)
    (hkey : ∀ c ∈ key, pyIsSpace c = false)
    (hseq : ∀ c ∈ seq, GoodChar c)
    (hne : seq ≠ []) :
    ∃ txt wn' blines, writeEntry n wn key seq = .ok (txt, wn') ∧
      (∃ core, txt = core ++ ['\n']) ∧
      linesOf txt = ('>' :: key) :: blines ∧
      (∀ l ∈ blines, pyStrip l = [] ∨ (pyStrip l = l ∧ l ≠ [] ∧ l.head? ≠ some '>')) ∧
      (blines.map pyStrip).flatten = seq := by
  obtain ⟨b, hb⟩ := writeSeqChars_snd_some n seq 0 wn hne
  have hseqnl : ∀ c ∈ seq, ¬ c = '\n' := by
    intro c hc e
    have := (hseq c hc).1
    rw [e] at this
    simp [pyIsSpace] at this
  have hkeynl : '\n' ∉ ('>' :: key) := by
    intro hmem
    rcases List.mem_cons.mp hmem with habs | hmem2
    · simp at habs
    · have := hkey _ hmem2
      simp [pyIsSpace] at this
  have hbodyall : ∀ (trailer : List Char), (∀ c ∈ trailer, c = '\n') →
      ∀ c ∈ (writeSeqChars n seq 0 wn).1 ++ trailer, c = '\n' ∨ GoodChar c := by
    intro trailer htr c hc
    rcases List.mem_append.mp hc with hc1 | hc2
    · rcases mem_writeSeqChars n seq 0 wn c hc1 with hs | rfl
      · exact Or.inr (hseq c hs)
      · exact Or.inl rfl
    · exact Or.inl (htr c hc2)
  have hlines : ∀ (trailer : List Char), (∀ c ∈ trailer, c = '\n') →
      linesOf (('>' :: key ++ ['\n']) ++ (writeSeqChars n seq 0 wn).1 ++ trailer) =
        ('>' :: key) :: linesOf ((writeSeqChars n seq 0 wn).1 ++ trailer) := by
    intro trailer _
    have e1 : ('>' :: key ++ ['\n']) ++ (writeSeqChars n seq 0 wn).1 ++ trailer =
        ('>' :: key) ++ '\n' :: ((writeSeqChars n seq 0 wn).1 ++ trailer) := by
      simp [List.append_assoc]
    rw [e1]
    show linesOfAux _ [] = _
    rw [linesOfAux_append_nl, linesOfAux_no_nl _ _ hkeynl]
    rfl
  have hflat : ∀ (trailer : List Char), (∀ c ∈ trailer, c = '\n') →
      ((linesOf ((writeSeqChars n seq 0 wn).1 ++ trailer)).map pyStrip).flatten = seq := by
    intro trailer htr
    rw [(body_lines_spec _ (hbodyall trailer htr)).2]
    have h1 : dropNl ((writeSeqChars n seq 0 wn).1 ++ trailer) =
        dropNl (writeSeqChars n seq 0 wn).1 ++ dropNl trailer := by
      simp [dropNl, List.filter_append]
    rw [h1, dropNl_writeSeqChars n seq 0 wn hseqnl]
    have h2 : dropNl trailer = [] := by
      simp only [dropNl, List.filter_eq_nil_iff]
      intro c hc
      simp [htr c hc]
    rw [h2, List.append_nil]
  cases b with
  | true =>
      refine ⟨('>' :: key ++ ['\n']) ++ (writeSeqChars n seq 0 wn).1 ++ ['\n'], some true,
        linesOf ((writeSeqChars n seq 0 wn).1 ++ ['\n']), ?_, ?_, ?_, ?_, ?_⟩
      · simp only [writeEntry]
        rw [hb]
      · exact ⟨('>' :: key ++ ['\n']) ++ (writeSeqChars n seq 0 wn).1, by simp⟩
      · exact hlines ['\n'] (by simp)
      · exact (body_lines_spec _ (hbodyall ['\n'] (by simp))).1
      · exact hflat ['\n'] (by simp)
  | false =>
      refine ⟨('>' :: key ++ ['\n']) ++ (writeSeqChars n seq 0 wn).1 ++ ['\n', '\n'], some false,
        linesOf ((writeSeqChars n seq 0 wn).1 ++ ['\n', '\n']), ?_, ?_, ?_, ?_, ?_⟩
      · simp only [writeEntry]
        rw [hb]
      · exact ⟨('>' :: key ++ ['\n']) ++ (writeSeqChars n seq 0 wn).1 ++ ['\n'], by simp⟩
      · exact hlines ['\n', '\n'] (by simp)
      · exact (body_lines_spec _ (hbodyall ['\n', '\n'] (by simp))).1
      · exact hflat ['\n', '\n'] (by simp)

end Protfasta

namespace Protfasta

/-- Writing a list of valid entries succeeds, and the lines of the produced
text form exactly one block per entry, each qualifying, with the entries'
headers and sequences. -/
lemma writeAll_lines (n : Option Nat) (entries : List (Line × Line)) :
    ∀ (wn : Option Bool), (∀ e ∈ entries, ValidEntry e) →
    ∃ txt bsG, writeAll n entries wn = .ok txt ∧
      linesOf txt = bsG.flatMap renderGBlock ∧
      (∀ b ∈ bsG, ValidGBlock b) ∧
      qualHeaders bsG = entries.map Prod.fst ∧
      qualRecs bsG = entries.map (fun e => (e.1, pyUpper e.2)) := by
  induction entries with
  | nil =>
      intro wn _
      exact ⟨[], [], rfl, rfl, by simp, rfl, rfl⟩
  | cons e rest ih =>
      intro wn hv
      obtain ⟨k, s⟩ := e
      obtain ⟨hkey, hseq, hne⟩ := hv (k, s) (by simp)
      obtain ⟨txt1, wn', blines, hentry, ⟨core, hcore⟩, hlines1, hbl, hflat⟩ :=
        writeEntry_lines n wn k s hkey hseq hne
      obtain ⟨txt2, bsG, hall2, hlines2, hvG, hqh, hqr⟩ :=
        ih wn' (fun x hx => hv x (by simp [hx]))
      have hqual : qualifies ⟨k, blines⟩ = true := by
        rw [qualifies_true_iff]
        show (blines.map pyStrip).flatten ≠ []
        rw [hflat]
        exact hne
      have hseqof : seqOf ⟨k, blines⟩ = s := hflat
      refine ⟨txt1 ++ txt2, ⟨k, blines⟩ :: bsG, ?_, ?_, ?_, ?_, ?_⟩
      · simp [writeAll, hentry, hall2]
      · have e1 : txt1 ++ txt2 = core ++ '\n' :: txt2 := by
          rw [hcore]
          simp
        rw [e1]
        show linesOfAux _ [] = _
        rw [linesOfAux_append_nl]
        have e2 : linesOfAux (core ++ ['\n']) [] = linesOf txt1 := by
          rw [hcore]
          rfl
        rw [e2]
        show linesOf txt1 ++ linesOf txt2 = _
        rw [hlines1, hlines2, flatMap_render_cons]
        rfl
      · intro b hb
        rcases List.mem_cons.mp hb with rfl | hb2
        · refine ⟨?_, hbl⟩
          apply noWS_strip_id
          intro c hc
          rcases List.mem_cons.mp hc with rfl | hc2
          · rfl
          · exact hkey c hc2
        · exact hvG b hb2
      · rw [qualHeaders_cons, hqual, hqh]
        simp
      · rw [qualRecs_cons, hqual, hqr]
        simp [recOf, hseqof]

/-- Counterexample to claim C3 as stated: for the mapping with the single
record A with an empty sequence and the default wrap-width 60, writing
already fails with the unbound-variable error, so no text can be re-parsed
at all. -/
theorem claim3_counterexample :
    write_fasta_file [(['A'], [])] (some 60) = .error .nameErrorWroteNewline := rfl

/-- Claim C3 as amended: for every mapping whose headers are whitespace-free
and whose sequences are nonempty and consist of non-whitespace, non-marker
characters, for every wrap width (including the disabled setting), writing
the mapping and re-parsing the produced text in list mode yields exactly the
same headers in order, with each sequence equal to the upper-cased stored
original. -/
theorem claim3_roundtrip_amended (entries : List (Line × Line)) (ll : Option Int)
    (euh : Bool)
    (hv : ∀ e ∈ entries, ValidEntry e)
    (hnd : (entries.map Prod.fst).Nodup) :
    ∃ txt, write_fasta_file entries ll = .ok txt ∧
      _parse_fasta_all (linesOf txt) .list euh none =
        .ok (entries.map (fun e => (e.1, pyUpper e.2))) := by
  obtain ⟨txt, bsG, hall, hlines, hvG, hqh, hqr⟩ :=
    writeAll_lines (normalizeLinelength ll) entries none hv
  refine ⟨txt, hall, ?_⟩
  rw [hlines]
  have h := runFrom_blocks_ok .list euh bsG ⟨[], [], [], []⟩ hvG ?_
  · rw [hqr] at h
    simpa [_parse_fasta_all, pendingRecs] using h
  · intro _
    rw [hqh]
    simpa [checkKeys, pendingOf] using hnd

/-- Witness for the amended C3: one lower-case record at wrap-width 2
round-trips to its upper-cased form. -/
theorem claim3_witness :
    ∃ txt, write_fasta_file [(['A'], ['m', 'k'])] (some 2) = .ok txt ∧
      _parse_fasta_all (linesOf txt) .list true none = .ok [(['A'], ['M', 'K'])] := by
  have h := claim3_roundtrip_amended [(['A'], ['m', 'k'])] (some 2) true
    (by decide) (by decide)
  have e : ([(['A'], ['m', 'k'])] : List (Line × Line)).map
      (fun e => (e.1, pyUpper e.2)) = [(['A'], ['M', 'K'])] := by decide
  rw [e] at h
  exact h

end Protfasta
